import Mathlib

/-!
Verification of the gee-cache core against its natural-language specification.

The Go sources are shallowly embedded as executable Lean definitions:

* `Lru` models `lru.Cache` (src/unnamed/part_000): byte-bounded LRU engine.
  The doubly linked list `ll` is a Lean list whose head is the list front
  (most recently used); the `cache` hash map of the Go code maps each key to
  its unique list element, so membership and lookup are modelled directly on
  the list.  The optional `OnEvicted` callback is modelled as a trace field
  `evicted` that records, in order, the `(key, value)` pairs the callback
  would receive.
* `GeeCache` models `ByteView`, the concurrent cache shell `cache`
  (day2-single-node/geecache), and the day-5 `Group` pipeline
  (src/unnamed/part_004).  Mutex-protected sequential code is modelled as
  pure state passing; the `Getter`, `PeerPicker` and `PeerGetter` interfaces
  are modelled as (pure) functions supplied as parameters.  The group state
  carries instrumentation counters (`cacheGets`, `loaderCalls`, `peerCalls`)
  counting how often the cache shell, the source loader and a peer getter
  are consulted.
* `ConsistentHash` models `consistenthash.Map` (src/unnamed/part_002).
  Go's `sort.Ints` is modelled by insertion sort: any correct sort of an
  integer list produces the same (unique) sorted permutation, so the model
  is extensionally the Go behaviour.  `sort.Search` over the sorted ring is
  the least index satisfying the monotone predicate, modelled by
  `List.findIdx`.  The `uint32` hash result is reduced mod 2^32 explicitly.
* `ConcGet` is a small interleaving model of two threads executing
  `Group.Get` on the same key (src/unnamed/part_004 `Get`/`load`):
  each thread first checks the shared cache (one atomic step, the shell
  mutex) and, on a miss, runs the load — loader invocation plus cache
  population — as one step.  Coarser atomicity only removes interleavings,
  so any interleaving of this model is realisable by the Go code.
-/

/-- Byte length of a key string, Go's `len(key)` on a UTF-8 string. -/
def strLen (s : String) : Nat := s.utf8ByteSize

namespace Lru

/-- Go `entry`: the value stored in each linked-list element. -/
structure Entry (V : Type) where
  key : String
  value : V
deriving DecidableEq, Repr

/-- Go `lru.Cache`.  `ll` is the recency list, head = front = most recently
used.  `evicted` is the trace of `OnEvicted` callback invocations. -/
structure Cache (V : Type) where
  maxBytes : Int
  nbytes : Int
  ll : List (Entry V)
  evicted : List (String × V)
deriving DecidableEq, Repr

/-- Go `lru.New`: empty cache with the given capacity. -/
def New (V : Type) (maxBytes : Int) : Cache V :=
  { maxBytes := maxBytes, nbytes := 0, ll := [], evicted := [] }

/-- Size in bytes that one entry contributes to `nbytes`:
`len(key) + value.Len()`. -/
def entrySize {V : Type} (vlen : V → Nat) (e : Entry V) : Int :=
  (strLen e.key : Int) + (vlen e.value : Int)

/-- Go `RemoveOldest`: if the list is non-empty, drop the back element,
update `nbytes`, and record the callback invocation `(key, value)`. -/
def RemoveOldest {V : Type} (vlen : V → Nat) (c : Cache V) : Cache V :=
  match c.ll.getLast? with
  | none => c
  | some e =>
      { c with
        ll := c.ll.dropLast
        nbytes := c.nbytes - entrySize vlen e
        evicted := c.evicted ++ [(e.key, e.value)] }

/-- Eviction loop of Go `Add`:
`for c.maxBytes != 0 && c.maxBytes < c.nbytes { c.RemoveOldest() }`,
written with explicit fuel so that it is structurally recursive and
kernel-executable.  When the list is empty `RemoveOldest` is the identity,
so the Go loop would spin forever; that situation needs `maxBytes < 0`
(under the bytes-accounting invariant `nbytes` is a sum of sizes, hence
non-negative on the empty list) and never arises in any claim.  Fuel
`c.ll.length` is exactly enough: each productive iteration removes one
element. -/
def evictFuel {V : Type} (vlen : V → Nat) : Nat → Cache V → Cache V
  | 0, c => c
  | Nat.succ fuel, c =>
      if c.maxBytes ≠ 0 ∧ c.maxBytes < c.nbytes then
        match c.ll with
        | [] => c
        | _ :: _ => evictFuel vlen fuel (RemoveOldest vlen c)
      else c

/-- Eviction loop entry point (see `evictFuel`). -/
def evictLoop {V : Type} (vlen : V → Nat) (c : Cache V) : Cache V :=
  evictFuel vlen c.ll.length c

/-- Find the first entry with the given key and return it together with the
remaining list (in original relative order).  Models the Go `cache` map
lookup combined with list removal for `MoveToFront`; in every state built by
the public operations each key occurs at most once. -/
def extractKey {V : Type} : List (Entry V) → String → Option (Entry V) × List (Entry V)
  | [], _ => (none, [])
  | e :: rest, k =>
      if e.key = k then (some e, rest)
      else
        let p := extractKey rest k
        (p.1, e :: p.2)

/-- Go `Add`: on a present key, move the element to the front, adjust
`nbytes` by the length difference and update the value; on an absent key,
push a fresh entry to the front and account `len(key) + value.Len()`.
Then run the eviction loop. -/
def Add {V : Type} (vlen : V → Nat) (key : String) (value : V) (c : Cache V) : Cache V :=
  match extractKey c.ll key with
  | (some old, rest) =>
      evictLoop vlen
        { c with
          ll := ⟨key, value⟩ :: rest
          nbytes := c.nbytes + (vlen value : Int) - (vlen old.value : Int) }
  | (none, _) =>
      evictLoop vlen
        { c with
          ll := ⟨key, value⟩ :: c.ll
          nbytes := c.nbytes + (strLen key : Int) + (vlen value : Int) }

/-- Go `Get`: on a hit, move the element to the front and return its value;
on a miss, return nothing and leave the cache unchanged. -/
def Get {V : Type} (key : String) (c : Cache V) : Option V × Cache V :=
  match extractKey c.ll key with
  | (some e, rest) => (some e.value, { c with ll := e :: rest })
  | (none, _) => (none, c)

/-- Go `Len`: number of resident entries. -/
def Len {V : Type} (c : Cache V) : Nat := c.ll.length

/-- One public call on the LRU engine. -/
inductive Op (V : Type) where
  | add (key : String) (value : V)
  | get (key : String)
  | removeOldest
  | len
deriving DecidableEq, Repr

/-- State transition of one public call (`len` is read-only). -/
def stepOp {V : Type} (vlen : V → Nat) (c : Cache V) : Op V → Cache V
  | .add k v => Add vlen k v c
  | .get k => (Get k c).2
  | .removeOldest => RemoveOldest vlen c
  | .len => c

/-- Run a sequence of public calls on a fresh engine of capacity
`maxBytes`. -/
def runOps {V : Type} (vlen : V → Nat) (maxBytes : Int) (ops : List (Op V)) : Cache V :=
  ops.foldl (stepOp vlen) (New V maxBytes)

/-- Sum over resident entries of `len(key) + value.Len()`. -/
def sumBytes {V : Type} (vlen : V → Nat) (l : List (Entry V)) : Int :=
  (l.map (entrySize vlen)).sum

/-- Bytes-accounting invariant: `nbytes` equals the sum of entry sizes. -/
def Acc {V : Type} (vlen : V → Nat) (c : Cache V) : Prop :=
  c.nbytes = sumBytes vlen c.ll

/-- Combined invariant preserved by every public operation. -/
def Inv {V : Type} (vlen : V → Nat) (c : Cache V) : Prop :=
  Acc vlen c ∧ (0 < c.maxBytes → c.nbytes ≤ c.maxBytes)

end Lru

namespace GeeCache

/-- Go `ByteView`: immutable view over an owned byte sequence; bytes are
modelled as natural numbers. -/
structure ByteView where
  b : List Nat
deriving DecidableEq, Repr

/-- Go `ByteView.Len`. -/
def ByteView.len (v : ByteView) : Nat := v.b.length

/-- Go `cloneBytes`: a deep copy of the byte slice.  Lean lists are
immutable values, so the copy is the identity on the modelled value. -/
def cloneBytes (b : List Nat) : List Nat := b

/-- Go `cache` (the concurrent cache shell): a mutex (modelled by
sequential state passing) around a lazily constructed LRU engine. -/
structure CacheShell where
  lru : Option (Lru.Cache ByteView)
  cacheBytes : Int
deriving DecidableEq, Repr

/-- Go `cache.add`: lazily construct the engine with capacity `cacheBytes`
on the first add, then delegate to `lru.Add`. -/
def cacheAdd (key : String) (value : ByteView) (c : CacheShell) : CacheShell :=
  let l :=
    match c.lru with
    | none => Lru.New ByteView c.cacheBytes
    | some l => l
  { c with lru := some (Lru.Add ByteView.len key value l) }

/-- Go `cache.get`: before the first add (no engine) report a miss without
constructing the engine; otherwise delegate to `lru.Get` (which reorders
recency on a hit). -/
def cacheGet (key : String) (c : CacheShell) : Option ByteView × CacheShell :=
  match c.lru with
  | none => (none, c)
  | some l =>
      match Lru.Get key l with
      | (some v, l2) => (some v, { c with lru := some l2 })
      | (none, _) => (none, c)

/-- Go `Getter` interface: the user-supplied source loader.  The Go pair
`([]byte, error)` is modelled by `Except`, matching how the group consumes
it (any non-nil error discards the bytes). -/
def Getter : Type := String → Except String (List Nat)

/-- Go `PeerGetter` interface: fetch `(groupName, key)` from a remote
peer. -/
def PeerGetter : Type := String → String → Except String (List Nat)

/-- Go `PeerPicker` interface: `PickPeer(key)` returns a peer getter, or
nothing when the key is owned locally / no peer is available. -/
def PeerPicker : Type := String → Option PeerGetter

/-- Mutable state of a Go `Group` (src/unnamed/part_004), plus
instrumentation counters: `cacheGets` counts `mainCache.get` calls,
`loaderCalls` counts `getter.Get` calls, `peerCalls` counts
`peer.Get` calls. -/
structure GroupState where
  name : String
  mainCache : CacheShell
  cacheGets : Nat
  loaderCalls : Nat
  peerCalls : Nat
deriving DecidableEq, Repr

/-- Result of group operations: Go's `(ByteView, error)` pair, with
`none` standing for a nil error. -/
def GResult : Type := (ByteView × Option String) × GroupState

/-- Go `Group.getLocally`: invoke the source loader; on error return it
with a zero byte-view; on success clone the bytes, wrap as a byte-view,
populate the cache shell under `key` (`populateCache`) and return. -/
def getLocally (getter : Getter) (key : String) (g : GroupState) : GResult :=
  let g1 := { g with loaderCalls := g.loaderCalls + 1 }
  match getter key with
  | .error e => ((⟨[]⟩, some e), g1)
  | .ok bytes =>
      let value : ByteView := ⟨cloneBytes bytes⟩
      ((value, none), { g1 with mainCache := cacheAdd key value g1.mainCache })

/-- Go `Group.getFromPeer`: ask the remote peer for `(g.name, key)`; on
success wrap the raw bytes in a byte-view (no clone, no cache insert). -/
def getFromPeer (peer : PeerGetter) (key : String) (g : GroupState) : GResult :=
  let g1 := { g with peerCalls := g.peerCalls + 1 }
  match peer g.name key with
  | .error e => ((⟨[]⟩, some e), g1)
  | .ok bytes => ((⟨bytes⟩, none), g1)

/-- Go `Group.load`: if a peer picker is registered and selects a remote
peer, try the peer first and return its value on success; on peer error, or
when no peer is selected, fall back to the local loader. -/
def load (getter : Getter) (peers : Option PeerPicker) (key : String) (g : GroupState) : GResult :=
  match peers with
  | none => getLocally getter key g
  | some picker =>
      match picker key with
      | none => getLocally getter key g
      | some peer =>
          match getFromPeer peer key g with
          | ((v, none), g1) => ((v, none), g1)
          | ((_, some _), g1) => getLocally getter key g1

/-- Go `Group.Get`: reject the empty key with a dedicated error before
touching anything; otherwise consult the cache shell and, on a miss,
dispatch to `load`. -/
def groupGet (getter : Getter) (peers : Option PeerPicker) (key : String) (g : GroupState) :
    GResult :=
  if key = "" then ((⟨[]⟩, some "key is required"), g)
  else
    let g1 := { g with cacheGets := g.cacheGets + 1 }
    match cacheGet key g.mainCache with
    | (some v, c2) => ((v, none), { g1 with mainCache := c2 })
    | (none, _) => load getter peers key g1

/-- Go `NewGroup`: a nil getter rejects the construction (the Go code
panics with "nil Getter"; the rejection is modelled as `none`); otherwise
the group starts with an unconstructed cache shell of the given
capacity. -/
def NewGroup (name : String) (cacheBytes : Int) (getter : Option Getter) :
    Option (Getter × GroupState) :=
  match getter with
  | none => none
  | some f =>
      some (f,
        { name := name
          mainCache := { lru := none, cacheBytes := cacheBytes }
          cacheGets := 0
          loaderCalls := 0
          peerCalls := 0 })

end GeeCache

namespace ConsistentHash

/-- Go `Hash` function type: `func(data []byte) uint32`.  The argument is
the string whose bytes are hashed; the `uint32` range restriction is
applied at every call site via `hashOf`. -/
def Hash : Type := String → Nat

/-- Go `consistenthash.Map`: the hash function, the per-node replica count,
the ring of virtual-node hash values (kept sorted by `Add`), and the map
from virtual-node hash to real node id.  A Go map lookup of an absent key
yields the zero value `""`, so `hashMap` is total with default `""`. -/
structure Map where
  hash : Hash
  replicas : Nat
  keys : List Int
  hashMap : Int → String

/-- Value of `int(m.hash([]byte(s)))`: the `uint32` hash widened to a
(non-negative) integer. -/
def hashOf (fn : Hash) (s : String) : Int := ((fn s) % 4294967296 : Nat)

/-- Go `consistenthash.New` with an explicit hash function (the `nil`
default, `crc32.ChecksumIEEE`, is outside the modelled claims). -/
def New (replicas : Nat) (fn : Hash) : Map :=
  { hash := fn, replicas := replicas, keys := [], hashMap := fun _ => "" }

/-- One iteration of the inner loop of Go `Add`: append
`hash(itoa(i) + key)` to the ring and map that virtual hash to `key`
(later writes overwrite earlier ones, as in a Go map). -/
def addVirtual (key : String) (acc : Map) (i : Nat) : Map :=
  let h := hashOf acc.hash (toString i ++ key)
  { acc with
    keys := acc.keys ++ [h]
    hashMap := fun h2 => if h2 = h then key else acc.hashMap h2 }

/-- Inner loop of Go `Add` for one real node `key`: run `addVirtual` for
each `i ∈ [0, replicas)`. -/
def addOne (m : Map) (key : String) : Map :=
  (List.range m.replicas).foldl (addVirtual key) m

/-- Go `Add(keys...)`: process every node, then sort the ring ascending.
`sort.Ints` is modelled by insertion sort: sorted permutations of an
integer list are unique, so any correct sort is extensionally Go's. -/
def Add (m : Map) (ks : List String) : Map :=
  let m2 := ks.foldl addOne m
  { m2 with keys := List.insertionSort (· ≤ ·) m2.keys }

/-- Go `Get(key)`: empty ring yields `""`; otherwise binary-search
(`sort.Search`) the sorted ring for the first index whose hash is
`≥ hash(key)` — on a sorted list this is the least such index, i.e.
`List.findIdx` — wrap `idx % len` and look the virtual hash up in
`hashMap`. -/
def Get (m : Map) (key : String) : String :=
  if m.keys.isEmpty then ""
  else
    let h := hashOf m.hash key
    let idx := m.keys.findIdx (fun x => decide (h ≤ x))
    let realIdx := idx % m.keys.length
    m.hashMap (m.keys.getD realIdx 0)

/-- Modelled from the spec (§4.D `get`), for comparison with the code's
`Get`: "if the ring is empty, return the empty identifier …
Binary-search for the smallest index `i` such that `sequence[i] ≥ h`; if no
such index exists, use index 0 (wrap around).  Return the node id mapped
from `sequence[i]`" — on the sorted ring the entry at the smallest such
index is the smallest virtual-node hash that is `≥ h`. -/
def specGet (m : Map) (key : String) : String :=
  if m.keys = [] then ""
  else
    let h := hashOf m.hash key
    match (m.keys.filter (fun x => decide (h ≤ x))).min? with
    | some x => m.hashMap x
    | none => m.hashMap (m.keys.headD 0)

/-- Build a ring by a sequence of `Add` calls, each adding a batch of
node ids. -/
def build (replicas : Nat) (fn : Hash) (batches : List (List String)) : Map :=
  batches.foldl Add (New replicas fn)

/-- Multiset of virtual-node hashes generated by a list of node ids. -/
def allHashes (replicas : Nat) (fn : Hash) (nodes : List String) : List Int :=
  nodes.flatMap (fun n => (List.range replicas).map (fun i => hashOf fn (toString i ++ n)))

/-- Collision-freedom of the virtual-node hashes generated from the node
set `T` with replica count `r`: equal virtual hashes can only come from the
same real node. -/
def InjOn (fn : Hash) (r : Nat) (T : List String) : Prop :=
  ∀ i1 n1 i2 n2, i1 < r → i2 < r → n1 ∈ T → n2 ∈ T →
    hashOf fn (toString i1 ++ n1) = hashOf fn (toString i2 ++ n2) → n1 = n2

/-- Correctness of the virtual-hash-to-node mapping for every node already
added (`done`). -/
def MapOK (fn : Hash) (r : Nat) (done : List String) (m : Map) : Prop :=
  ∀ i n, i < r → n ∈ done → m.hashMap (hashOf fn (toString i ++ n)) = n

/-- Decimal-ASCII hash of the consistent-hash unit test
(src/unnamed/part_003): parse the key as a decimal number.  `strconv.Atoi`
is modelled by digit folding, which agrees with Go on all the numeric
strings the scenario feeds it. -/
def decimalHash : Hash :=
  fun s => s.data.foldl (fun a c => a * 10 + (c.toNat - 48)) 0

end ConsistentHash

namespace ConcGet

/-- Program counter of one thread running `Group.Get(key)` on a shared
group (src/unnamed/part_004): `0` = about to check the cache shell,
`1` = observed a miss and is about to run `load` (loader + populate),
`2` = finished. -/
structure Thread where
  pc : Nat
  observedMiss : Bool
  result : Option GeeCache.ByteView
deriving DecidableEq, Repr

/-- Shared state: the cache shell content at the key under test, the
number of loader invocations, and the two threads. -/
structure State where
  cached : Option GeeCache.ByteView
  loadCount : Nat
  threads : List Thread
deriving DecidableEq, Repr

/-- Value the source loader returns for the key under test. -/
def loaderVal : GeeCache.ByteView := ⟨[42]⟩

/-- One atomic step of one thread.  At `pc = 0` the thread performs
`mainCache.get` under the shell mutex: a hit finishes the call, a miss
proceeds to `load`.  At `pc = 1` the thread performs
`load = getLocally`: one loader invocation followed by `populateCache`,
taken as a single step (coarser atomicity only removes interleavings).
The Go `Get`/`load` contain no synchronisation between the cache check
and the load, so any interleaving of these steps is realisable. -/
def stepThread (s : State) (t : Thread) : State × Thread :=
  match t.pc with
  | 0 =>
      match s.cached with
      | some v => (s, { t with pc := 2, result := some v })
      | none => (s, { t with pc := 1, observedMiss := true })
  | 1 =>
      ({ s with cached := some loaderVal, loadCount := s.loadCount + 1 },
       { t with pc := 2, result := some loaderVal })
  | _ => (s, t)

/-- Scheduler step: run one atomic step of thread `i` (out-of-range ids
are no-ops). -/
def step (s : State) (i : Nat) : State :=
  match s.threads.get? i with
  | none => s
  | some t =>
      let p := stepThread s t
      { p.1 with threads := p.1.threads.set i p.2 }

/-- Run a schedule (a list of thread ids, executed left to right). -/
def run (sched : List Nat) (s : State) : State := sched.foldl step s

/-- Initial state: nothing cached, no loads, two threads both about to
execute `Group.Get` for the same (uncached) key. -/
def init2 : State :=
  { cached := none, loadCount := 0
    threads := [⟨0, false, none⟩, ⟨0, false, none⟩] }

/-- Number of threads that completed `Group.Get` through the miss path
(each such completion executed `load` exactly once). -/
def missLoads (s : State) : Nat :=
  s.threads.countP (fun t => t.pc = 2 && t.observedMiss)

/-- Invariant of the two-thread model: the loader-invocation count equals
the number of threads that finished through the miss path, and program
counters are consistent with the miss flag. -/
def OK (s : State) : Prop :=
  s.loadCount = missLoads s ∧
  ∀ t ∈ s.threads, (t.pc = 0 → t.observedMiss = false) ∧ (t.pc = 1 → t.observedMiss = true)

end ConcGet

namespace GeeCache

/-- Concrete group used to instantiate universally quantified theorems:
fresh group named "scores" with capacity 2048 (as in scenario S5). -/
def wGroup : GroupState :=
  { name := "scores"
    mainCache := { lru := none, cacheBytes := 2048 }
    cacheGets := 0
    loaderCalls := 0
    peerCalls := 0 }

/-- Concrete loader that succeeds with the bytes of "630". -/
def wGetterOk : Getter := fun _ => Except.ok [54, 51, 48]

/-- Concrete loader that fails. -/
def wGetterErr : Getter := fun _ => Except.error "Tom not exist"

/-- Concrete peer getter that succeeds. -/
def wPeerOk : PeerGetter := fun _ _ => Except.ok [9, 9]

/-- Concrete peer getter that fails. -/
def wPeerErr : PeerGetter := fun _ _ => Except.error "server returned: 500 Internal Server Error"

/-- Concrete picker that always selects `wPeerOk`. -/
def wPickerOk : PeerPicker := fun _ => some wPeerOk

/-- Concrete picker that always selects `wPeerErr`. -/
def wPickerErr : PeerPicker := fun _ => some wPeerErr

end GeeCache


namespace Lru

theorem sumBytes_cons {V : Type} (vlen : V → Nat) (e : Entry V) (l : List (Entry V)) :
    sumBytes vlen (e :: l) = entrySize vlen e + sumBytes vlen l := by
  simp [sumBytes]

theorem sumBytes_append {V : Type} (vlen : V → Nat) (l1 l2 : List (Entry V)) :
    sumBytes vlen (l1 ++ l2) = sumBytes vlen l1 + sumBytes vlen l2 := by
  simp [sumBytes]

theorem entrySize_nonneg {V : Type} (vlen : V → Nat) (e : Entry V) :
    0 ≤ entrySize vlen e := by
  have h1 : (0 : Int) ≤ (strLen e.key : Int) := Int.natCast_nonneg _
  have h2 : (0 : Int) ≤ (vlen e.value : Int) := Int.natCast_nonneg _
  unfold entrySize
  omega

theorem sumBytes_nonneg {V : Type} (vlen : V → Nat) (l : List (Entry V)) :
    0 ≤ sumBytes vlen l := by
  induction l with
  | nil => simp [sumBytes]
  | cons e t ih =>
      rw [sumBytes_cons]
      have := entrySize_nonneg vlen e
      omega

theorem sumBytes_dropLast {V : Type} (vlen : V → Nat) (l : List (Entry V)) (h : l ≠ []) :
    sumBytes vlen l = sumBytes vlen l.dropLast + entrySize vlen (l.getLast h) := by
  conv_lhs => rw [← List.dropLast_append_getLast h]
  rw [sumBytes_append]
  simp [sumBytes, entrySize]

theorem removeOldest_acc {V : Type} (vlen : V → Nat) (c : Cache V) (h : Acc vlen c) :
    Acc vlen (RemoveOldest vlen c) := by
  unfold RemoveOldest
  cases hll : c.ll.getLast? with
  | none => exact h
  | some e =>
      have hne : c.ll ≠ [] := by
        intro h0
        rw [h0] at hll
        simp at hll
      have he : c.ll.getLast hne = e := by
        rw [List.getLast?_eq_getLast _ hne] at hll
        exact Option.some.inj hll
      have hs := sumBytes_dropLast vlen c.ll hne
      rw [he] at hs
      unfold Acc at h ⊢
      simp only []
      omega

theorem removeOldest_maxBytes {V : Type} (vlen : V → Nat) (c : Cache V) :
    (RemoveOldest vlen c).maxBytes = c.maxBytes := by
  unfold RemoveOldest
  cases c.ll.getLast? <;> rfl

theorem removeOldest_nbytes_le {V : Type} (vlen : V → Nat) (c : Cache V) :
    (RemoveOldest vlen c).nbytes ≤ c.nbytes := by
  unfold RemoveOldest
  cases hll : c.ll.getLast? with
  | none => exact le_refl _
  | some e =>
      have := entrySize_nonneg vlen e
      simp only []
      omega

theorem removeOldest_ll_length {V : Type} (vlen : V → Nat) (c : Cache V) (h : c.ll ≠ []) :
    (RemoveOldest vlen c).ll.length + 1 = c.ll.length := by
  unfold RemoveOldest
  rw [List.getLast?_eq_getLast _ h]
  simp only [List.length_dropLast]
  have : 1 ≤ c.ll.length := by
    cases hc : c.ll with
    | nil => exact absurd hc h
    | cons a t => simp
  omega

theorem evictFuel_succ {V : Type} (vlen : V → Nat) (n : Nat) (c : Cache V) :
    evictFuel vlen (n + 1) c =
      if c.maxBytes ≠ 0 ∧ c.maxBytes < c.nbytes then
        match c.ll with
        | [] => c
        | _ :: _ => evictFuel vlen n (RemoveOldest vlen c)
      else c := rfl

theorem evictFuel_acc {V : Type} (vlen : V → Nat) :
    ∀ (fuel : Nat) (c : Cache V), Acc vlen c → Acc vlen (evictFuel vlen fuel c) := by
  intro fuel
  induction fuel with
  | zero => intro c h; exact h
  | succ n ih =>
      intro c h
      rw [evictFuel_succ]
      by_cases hcond : c.maxBytes ≠ 0 ∧ c.maxBytes < c.nbytes
      · rw [if_pos hcond]
        cases hll : c.ll with
        | nil => exact h
        | cons a t => exact ih _ (removeOldest_acc vlen c h)
      · rw [if_neg hcond]; exact h

theorem evictFuel_maxBytes {V : Type} (vlen : V → Nat) :
    ∀ (fuel : Nat) (c : Cache V), (evictFuel vlen fuel c).maxBytes = c.maxBytes := by
  intro fuel
  induction fuel with
  | zero => intro c; rfl
  | succ n ih =>
      intro c
      rw [evictFuel_succ]
      by_cases hcond : c.maxBytes ≠ 0 ∧ c.maxBytes < c.nbytes
      · rw [if_pos hcond]
        cases hll : c.ll with
        | nil => rfl
        | cons a t => show (evictFuel vlen n (RemoveOldest vlen c)).maxBytes = c.maxBytes; rw [ih, removeOldest_maxBytes]
      · rw [if_neg hcond]

theorem evictFuel_cap {V : Type} (vlen : V → Nat) :
    ∀ (fuel : Nat) (c : Cache V), c.ll.length ≤ fuel → Acc vlen c → 0 < c.maxBytes →
      (evictFuel vlen fuel c).nbytes ≤ c.maxBytes := by
  intro fuel
  induction fuel with
  | zero =>
      intro c hlen hacc hpos
      have hnil : c.ll = [] := List.length_eq_zero.mp (Nat.le_zero.mp hlen)
      have hz : c.nbytes = 0 := by
        rw [hacc, hnil]; rfl
      show c.nbytes ≤ c.maxBytes
      omega
  | succ n ih =>
      intro c hlen hacc hpos
      rw [evictFuel_succ]
      by_cases hcond : c.maxBytes ≠ 0 ∧ c.maxBytes < c.nbytes
      · rw [if_pos hcond]
        cases hll : c.ll with
        | nil =>
            exfalso
            have hz : c.nbytes = 0 := by rw [hacc, hll]; rfl
            omega
        | cons a t =>
            show (evictFuel vlen n (RemoveOldest vlen c)).nbytes ≤ c.maxBytes
            have hne : c.ll ≠ [] := by rw [hll]; simp
            have hlen1 := removeOldest_ll_length vlen c hne
            have hlen2 : (RemoveOldest vlen c).ll.length ≤ n := by omega
            have hres := ih (RemoveOldest vlen c) hlen2 (removeOldest_acc vlen c hacc)
              (by rw [removeOldest_maxBytes]; exact hpos)
            rw [removeOldest_maxBytes] at hres
            exact hres
      · rw [if_neg hcond]
        push_neg at hcond
        by_cases hz : c.maxBytes = 0
        · omega
        · have := hcond hz
          omega

theorem evictLoop_acc {V : Type} (vlen : V → Nat) (c : Cache V) (h : Acc vlen c) :
    Acc vlen (evictLoop vlen c) :=
  evictFuel_acc vlen _ c h

theorem evictLoop_cap {V : Type} (vlen : V → Nat) (c : Cache V) (hacc : Acc vlen c)
    (hpos : 0 < c.maxBytes) : (evictLoop vlen c).nbytes ≤ c.maxBytes :=
  evictFuel_cap vlen _ c (le_refl _) hacc hpos

theorem evictLoop_maxBytes {V : Type} (vlen : V → Nat) (c : Cache V) :
    (evictLoop vlen c).maxBytes = c.maxBytes :=
  evictFuel_maxBytes vlen _ c

theorem extractKey_some {V : Type} (vlen : V → Nat) :
    ∀ (l : List (Entry V)) (k : String) (e : Entry V) (rest : List (Entry V)),
      extractKey l k = (some e, rest) →
      e.key = k ∧ sumBytes vlen l = entrySize vlen e + sumBytes vlen rest := by
  intro l
  induction l with
  | nil => intro k e rest h; simp [extractKey] at h
  | cons a t ih =>
      intro k e rest h
      by_cases hk : a.key = k
      · rw [extractKey, if_pos hk] at h
        obtain ⟨he, hrest⟩ := Prod.mk.injEq .. ▸ h
        cases he
        cases hrest
        exact ⟨hk, by rw [sumBytes_cons]⟩
      · rw [extractKey, if_neg hk] at h
        cases hrest : extractKey t k with
        | mk o r =>
            rw [hrest] at h
            obtain ⟨ho, hr⟩ := Prod.mk.injEq .. ▸ h
            cases o with
            | none => exact absurd ho.symm (by simp)
            | some e2 =>
                cases ho
                cases hr
                obtain ⟨hek, hsum⟩ := ih k e r hrest
                constructor
                · exact hek
                · rw [sumBytes_cons, sumBytes_cons, hsum]
                  ring

theorem extractKey_none_iff {V : Type} :
    ∀ (l : List (Entry V)) (k : String),
      (extractKey l k).1 = none ↔ k ∉ l.map (fun e => e.key) := by
  intro l
  induction l with
  | nil => intro k; simp [extractKey]
  | cons a t ih =>
      intro k
      by_cases hk : a.key = k
      · rw [extractKey, if_pos hk]
        simp [hk]
      · rw [extractKey, if_neg hk]
        simp only [List.map_cons, List.mem_cons]
        constructor
        · intro h hmem
          cases hmem with
          | inl h2 => exact hk h2.symm
          | inr h2 => exact ((ih k).mp h) h2
        · intro h
          exact (ih k).mpr (fun h2 => h (Or.inr h2))

theorem add_inv {V : Type} (vlen : V → Nat) (key : String) (value : V) (c : Cache V)
    (h : Inv vlen c) : Inv vlen (Add vlen key value c) := by
  obtain ⟨hacc, _⟩ := h
  unfold Add
  cases hex : extractKey c.ll key with
  | mk o rest =>
      cases o with
      | some old =>
          obtain ⟨_, hsum⟩ := extractKey_some vlen c.ll key old rest hex
          have hacc2 :
              Acc vlen
                { c with
                  ll := ⟨key, value⟩ :: rest
                  nbytes := c.nbytes + (vlen value : Int) - (vlen old.value : Int) } := by
            unfold Acc at hacc ⊢
            simp only []
            rw [sumBytes_cons]
            unfold entrySize at hsum ⊢
            simp only []
            have hlen : (strLen old.key : Int) = (strLen key : Int) := by
              obtain ⟨hk, _⟩ := extractKey_some vlen c.ll key old rest hex
              rw [hk]
            omega
          constructor
          · exact evictLoop_acc vlen _ hacc2
          · intro hpos
            rw [evictLoop_maxBytes] at hpos
            have := evictLoop_cap vlen _ hacc2 hpos
            rw [evictLoop_maxBytes]
            exact this
      | none =>
          have hacc2 :
              Acc vlen
                { c with
                  ll := ⟨key, value⟩ :: c.ll
                  nbytes := c.nbytes + (strLen key : Int) + (vlen value : Int) } := by
            unfold Acc at hacc ⊢
            simp only []
            rw [sumBytes_cons]
            unfold entrySize
            simp only []
            omega
          constructor
          · exact evictLoop_acc vlen _ hacc2
          · intro hpos
            rw [evictLoop_maxBytes] at hpos
            have := evictLoop_cap vlen _ hacc2 hpos
            rw [evictLoop_maxBytes]
            exact this

theorem get_inv {V : Type} (vlen : V → Nat) (key : String) (c : Cache V)
    (h : Inv vlen c) : Inv vlen (Get key c).2 := by
  obtain ⟨hacc, hcap⟩ := h
  unfold Get
  cases hex : extractKey c.ll key with
  | mk o rest =>
      cases o with
      | some e =>
          obtain ⟨_, hsum⟩ := extractKey_some vlen c.ll key e rest hex
          constructor
          · unfold Acc at hacc ⊢
            simp only []
            rw [sumBytes_cons]
            omega
          · exact hcap
      | none => exact ⟨hacc, hcap⟩

theorem removeOldest_inv {V : Type} (vlen : V → Nat) (c : Cache V)
    (h : Inv vlen c) : Inv vlen (RemoveOldest vlen c) := by
  obtain ⟨hacc, hcap⟩ := h
  refine ⟨removeOldest_acc vlen c hacc, ?_⟩
  rw [removeOldest_maxBytes]
  intro hpos
  exact le_trans (removeOldest_nbytes_le vlen c) (hcap hpos)

theorem stepOp_inv {V : Type} (vlen : V → Nat) (c : Cache V) (op : Op V)
    (h : Inv vlen c) : Inv vlen (stepOp vlen c op) := by
  cases op with
  | add k v => exact add_inv vlen k v c h
  | get k => exact get_inv vlen k c h
  | removeOldest => exact removeOldest_inv vlen c h
  | len => exact h

theorem stepOp_maxBytes {V : Type} (vlen : V → Nat) (c : Cache V) (op : Op V) :
    (stepOp vlen c op).maxBytes = c.maxBytes := by
  cases op with
  | add k v =>
      show (Add vlen _ _ c).maxBytes = c.maxBytes
      unfold Add
      cases hex : extractKey c.ll _ with
      | mk o rest => cases o <;> rw [evictLoop_maxBytes]
  | get k =>
      show ((Get _ c).2).maxBytes = c.maxBytes
      unfold Get
      cases hex : extractKey c.ll _ with
      | mk o rest => cases o <;> rfl
  | removeOldest => exact removeOldest_maxBytes vlen c
  | len => rfl

theorem runOps_inv {V : Type} (vlen : V → Nat) (maxBytes : Int) (ops : List (Op V)) :
    Inv vlen (runOps vlen maxBytes ops) := by
  have hbase : Inv vlen (New V maxBytes) := by
    constructor
    · rfl
    · intro hpos
      simp only [New] at hpos ⊢
      omega
  unfold runOps
  generalize hstart : New V maxBytes = c at hbase
  clear hstart
  induction ops generalizing c with
  | nil => exact hbase
  | cons op rest ih =>
      exact ih _ (stepOp_inv vlen c op hbase)

theorem runOps_maxBytes {V : Type} (vlen : V → Nat) (maxBytes : Int) (ops : List (Op V)) :
    (runOps vlen maxBytes ops).maxBytes = maxBytes := by
  unfold runOps
  have hbase : (New V maxBytes).maxBytes = maxBytes := rfl
  generalize hstart : New V maxBytes = c at hbase
  clear hstart
  induction ops generalizing c with
  | nil => exact hbase
  | cons op rest ih =>
      exact ih _ (by rw [stepOp_maxBytes, hbase])

theorem evictFuel_ll_suffix {V : Type} (vlen : V → Nat) :
    ∀ (fuel : Nat) (c : Cache V), ∃ t, c.ll = (evictFuel vlen fuel c).ll ++ t := by
  intro fuel
  induction fuel with
  | zero => intro c; exact ⟨[], by simp [evictFuel]⟩
  | succ n ih =>
      intro c
      rw [evictFuel_succ]
      by_cases hcond : c.maxBytes ≠ 0 ∧ c.maxBytes < c.nbytes
      · rw [if_pos hcond]
        cases hll : c.ll with
        | nil => exact ⟨[], by simp [hll]⟩
        | cons a t =>
            obtain ⟨t2, ht2⟩ := ih (RemoveOldest vlen c)
            have hne : c.ll ≠ [] := by rw [hll]; simp
            have hrem : (RemoveOldest vlen c).ll = c.ll.dropLast := by
              unfold RemoveOldest
              rw [List.getLast?_eq_getLast _ hne]
            refine ⟨t2 ++ [c.ll.getLast hne], ?_⟩
            show a :: t = (evictFuel vlen n (RemoveOldest vlen c)).ll ++ (t2 ++ [c.ll.getLast hne])
            rw [← hll]
            calc c.ll = c.ll.dropLast ++ [c.ll.getLast hne] :=
                  (List.dropLast_append_getLast hne).symm
              _ = (RemoveOldest vlen c).ll ++ [c.ll.getLast hne] := by rw [hrem]
              _ = ((evictFuel vlen n (RemoveOldest vlen c)).ll ++ t2) ++ [c.ll.getLast hne] := by
                  rw [← ht2]
              _ = (evictFuel vlen n (RemoveOldest vlen c)).ll ++ (t2 ++ [c.ll.getLast hne]) := by
                  rw [List.append_assoc]
      · rw [if_neg hcond]
        exact ⟨[], by simp⟩

theorem evictFuel_empties {V : Type} (vlen : V → Nat) :
    ∀ (fuel : Nat) (c : Cache V), c.ll.length ≤ fuel → Acc vlen c → 0 < c.maxBytes →
      (∀ e, c.ll.head? = some e → c.maxBytes < entrySize vlen e) →
      (evictFuel vlen fuel c).ll = [] ∧ (evictFuel vlen fuel c).nbytes = 0 := by
  intro fuel
  induction fuel with
  | zero =>
      intro c hlen hacc _ _
      have hnil : c.ll = [] := List.length_eq_zero.mp (Nat.le_zero.mp hlen)
      refine ⟨hnil, ?_⟩
      show c.nbytes = 0
      rw [hacc, hnil]
      rfl
  | succ n ih =>
      intro c hlen hacc hpos hhead
      rw [evictFuel_succ]
      cases hll : c.ll with
      | nil =>
          have hz : c.nbytes = 0 := by rw [hacc, hll]; rfl
          by_cases hcond : c.maxBytes ≠ 0 ∧ c.maxBytes < c.nbytes
          · rw [if_pos hcond, hll]
            exact ⟨rfl, hz⟩
          · rw [if_neg hcond]
            exact ⟨hll, hz⟩
      | cons a t =>
          have hsa : c.maxBytes < entrySize vlen a := by
            apply hhead
            rw [hll]
            rfl
          have hsum : c.nbytes = entrySize vlen a + sumBytes vlen t := by
            rw [hacc, hll, sumBytes_cons]
          have hcond : c.maxBytes ≠ 0 ∧ c.maxBytes < c.nbytes := by
            have := sumBytes_nonneg vlen t
            constructor
            · omega
            · omega
          rw [if_pos hcond]
          show (evictFuel vlen n (RemoveOldest vlen c)).ll = [] ∧
            (evictFuel vlen n (RemoveOldest vlen c)).nbytes = 0
          have hne : c.ll ≠ [] := by rw [hll]; simp
          have hrem : (RemoveOldest vlen c).ll = c.ll.dropLast := by
            unfold RemoveOldest
            rw [List.getLast?_eq_getLast _ hne]
          have hlen1 := removeOldest_ll_length vlen c hne
          apply ih (RemoveOldest vlen c)
          · omega
          · exact removeOldest_acc vlen c hacc
          · rw [removeOldest_maxBytes]; exact hpos
          · intro e he
            rw [removeOldest_maxBytes]
            rw [hrem, hll] at he
            cases t with
            | nil => simp at he
            | cons b t2 =>
                have : (a :: b :: t2).dropLast = a :: (b :: t2).dropLast := rfl
                rw [this] at he
                have : e = a := by
                  simp at he
                  exact he.symm
                rw [this]
                exact hsa

theorem evictLoop_head {V : Type} (vlen : V → Nat) (c : Cache V) (e : Entry V)
    (hll : c.ll.head? = some e) (hne : (evictLoop vlen c).ll ≠ []) :
    (evictLoop vlen c).ll.head? = some e := by
  obtain ⟨t, ht⟩ := evictFuel_ll_suffix vlen c.ll.length c
  unfold evictLoop
  cases hres : (evictFuel vlen c.ll.length c).ll with
  | nil => exact absurd hres hne
  | cons r rs =>
      rw [ht, hres] at hll
      simp at hll
      rw [hll]
      rfl

theorem add_head_of_mem {V : Type} (vlen : V → Nat) (key : String) (value : V) (c : Cache V)
    (h : key ∈ (Add vlen key value c).ll.map (fun e => e.key)) :
    (Add vlen key value c).ll.head? = some ⟨key, value⟩ := by
  cases hex : extractKey c.ll key with
  | mk o rest =>
      cases o with
      | some old =>
          have heq : Add vlen key value c =
              evictLoop vlen
                { c with
                  ll := ⟨key, value⟩ :: rest
                  nbytes := c.nbytes + (vlen value : Int) - (vlen old.value : Int) } := by
            unfold Add
            rw [hex]
          rw [heq] at h ⊢
          exact evictLoop_head vlen _ _ rfl (by intro h0; rw [h0] at h; simp at h)
      | none =>
          have heq : Add vlen key value c =
              evictLoop vlen
                { c with
                  ll := ⟨key, value⟩ :: c.ll
                  nbytes := c.nbytes + (strLen key : Int) + (vlen value : Int) } := by
            unfold Add
            rw [hex]
          rw [heq] at h ⊢
          exact evictLoop_head vlen _ _ rfl (by intro h0; rw [h0] at h; simp at h)

theorem get_head {V : Type} (key : String) (v : V) (c : Cache V)
    (h : (Get key c).1 = some v) :
    ((Get key c).2).ll.head? = some ⟨key, v⟩ := by
  unfold Get at h ⊢
  cases hex : extractKey c.ll key with
  | mk o rest =>
      rw [hex] at h
      cases o with
      | some e =>
          simp at h
          obtain ⟨hk, _⟩ := extractKey_some (fun _ => 0) c.ll key e rest hex
          show (e :: rest).head? = some ⟨key, v⟩
          cases e with
          | mk ek ev =>
              simp at hk h
              rw [hk, h]
              rfl
      | none => simp at h

theorem removeOldest_spec {V : Type} (vlen : V → Nat) (c : Cache V) (h : c.ll ≠ []) :
    (RemoveOldest vlen c).ll = c.ll.dropLast ∧
    (RemoveOldest vlen c).evicted =
      c.evicted ++ [((c.ll.getLast h).key, (c.ll.getLast h).value)] := by
  unfold RemoveOldest
  rw [List.getLast?_eq_getLast _ h]
  exact ⟨rfl, rfl⟩

end Lru

/-- Claim C2: for every LRU engine with `maxBytes > 0` and every sequence of
`Add`, `Get`, `RemoveOldest` and `Len` calls, when each public call returns,
`nbytes` is at most `maxBytes` — including the case where a single added
entry alone exceeds `maxBytes` (the sequence is universally quantified, so
the bound holds after every prefix, i.e. after every call). -/
theorem c2_lru_capacity (V : Type) (vlen : V → Nat) (maxBytes : Int)
    (ops : List (Lru.Op V)) (h : 0 < maxBytes) :
    (Lru.runOps vlen maxBytes ops).nbytes ≤ maxBytes := by
  have hinv := Lru.runOps_inv vlen maxBytes ops
  have hmb := Lru.runOps_maxBytes vlen maxBytes ops
  have hcap := hinv.2 (by rw [hmb]; exact h)
  rw [hmb] at hcap
  exact hcap

/-- Witness for C2 at a concrete input, including an entry whose size alone
(3 + 10 bytes) exceeds the capacity 3. -/
theorem c2_lru_capacity_witness :
    (Lru.runOps strLen 3 [Lru.Op.add "key" "0123456789"]).nbytes ≤ 3 :=
  c2_lru_capacity String strLen 3 [Lru.Op.add "key" "0123456789"] (by decide)

/-- Claim C3: for every LRU engine and every sequence of public calls,
`nbytes` equals the sum over resident entries of `len(key) + value.Len()`;
in particular scenario S3 (capacity 0, add `("key","1")` then
`("key","111")`) ends with `nbytes = 6`. -/
theorem c3_lru_accounting :
    (∀ (V : Type) (vlen : V → Nat) (maxBytes : Int) (ops : List (Lru.Op V)),
      (Lru.runOps vlen maxBytes ops).nbytes =
        Lru.sumBytes vlen (Lru.runOps vlen maxBytes ops).ll) ∧
    (Lru.runOps strLen 0 [Lru.Op.add "key" "1", Lru.Op.add "key" "111"]).nbytes = 6 := by
  constructor
  · intro V vlen mb ops
    exact (Lru.runOps_inv vlen mb ops).1
  · decide

/-- Counterexample to claim C9 as stated: after `Add(k,v)` the entry for
`k` need not be at the head of the recency order, because the capacity
eviction loop inside `Add` may evict the just-added entry itself.  With
`maxBytes = 2` and the 4-byte entry `("k","vvv")` the engine is left empty,
so no entry for `"k"` is at the head. -/
theorem c9_counterexample :
    ¬ ((Lru.Add strLen "k" "vvv" (Lru.New String 2)).ll.head? =
        some ⟨"k", "vvv"⟩) := by decide

/-- Claim C9, amended: after `Add(k,v)`, *if the entry for `k` is still
resident*, it is at the head of the recency order (the eviction loop can
remove it, see `c9_counterexample`); after a successful `Get(k)` the entry
for `k` is at the head; `RemoveOldest` removes exactly the tail entry and
invokes the eviction callback with `(key, value)` (recorded in the trace)
after the state is updated; and scenario S2 (capacity 10, callback
recording evicted keys) evicts exactly `["key1", "k2"]` in that order. -/
theorem c9_recency :
    (∀ (V : Type) (vlen : V → Nat) (key : String) (value : V) (c : Lru.Cache V),
      key ∈ (Lru.Add vlen key value c).ll.map (fun e => e.key) →
      (Lru.Add vlen key value c).ll.head? = some ⟨key, value⟩) ∧
    (∀ (V : Type) (key : String) (v : V) (c : Lru.Cache V),
      (Lru.Get key c).1 = some v →
      ((Lru.Get key c).2).ll.head? = some ⟨key, v⟩) ∧
    (∀ (V : Type) (vlen : V → Nat) (c : Lru.Cache V) (h : c.ll ≠ []),
      (Lru.RemoveOldest vlen c).ll = c.ll.dropLast ∧
      (Lru.RemoveOldest vlen c).evicted =
        c.evicted ++ [((c.ll.getLast h).key, (c.ll.getLast h).value)]) ∧
    (Lru.runOps strLen 10
      [.add "key1" "123456", .add "k2" "k2", .add "k3" "k3", .add "k4" "k4"]).evicted.map
        Prod.fst = ["key1", "k2"] := by
  refine ⟨?_, ?_, ?_, by decide⟩
  · intro V vlen key value c h
    exact Lru.add_head_of_mem vlen key value c h
  · intro V key v c h
    exact Lru.get_head key v c h
  · intro V vlen c h
    exact Lru.removeOldest_spec vlen c h

/-- Witness for C9 (amended) at a concrete input: with unlimited capacity,
the added entry stays at the head. -/
theorem c9_recency_witness :
    (Lru.Add strLen "a" "x" (Lru.New String 0)).ll.head? = some ⟨"a", "x"⟩ :=
  c9_recency.1 String strLen "a" "x" (Lru.New String 0) (by decide)

/-- Claim C10: on an engine with `maxBytes > 0` (in any reachable state),
adding an absent key whose entry size alone exceeds `maxBytes` leaves the
engine empty — the eviction loop evicts every older entry and then the new
entry itself — so a subsequent `Get` of that key misses. -/
theorem c10_oversized_add (V : Type) (vlen : V → Nat) (maxBytes : Int)
    (ops : List (Lru.Op V)) (key : String) (value : V)
    (hpos : 0 < maxBytes)
    (habs : key ∉ (Lru.runOps vlen maxBytes ops).ll.map (fun e => e.key))
    (hbig : maxBytes < (strLen key : Int) + (vlen value : Int)) :
    (Lru.Add vlen key value (Lru.runOps vlen maxBytes ops)).ll = [] ∧
    (Lru.Add vlen key value (Lru.runOps vlen maxBytes ops)).nbytes = 0 ∧
    (Lru.Get key (Lru.Add vlen key value (Lru.runOps vlen maxBytes ops))).1 = none := by
  have hacc := (Lru.runOps_inv vlen maxBytes ops).1
  have hmb := Lru.runOps_maxBytes vlen maxBytes ops
  have hext : (Lru.extractKey (Lru.runOps vlen maxBytes ops).ll key).1 = none :=
    (Lru.extractKey_none_iff _ _).mpr habs
  cases hex : Lru.extractKey (Lru.runOps vlen maxBytes ops).ll key with
  | mk o rest =>
      rw [hex] at hext
      cases o with
      | some old => simp at hext
      | none =>
          have heq : Lru.Add vlen key value (Lru.runOps vlen maxBytes ops) =
              Lru.evictLoop vlen
                { Lru.runOps vlen maxBytes ops with
                  ll := ⟨key, value⟩ :: (Lru.runOps vlen maxBytes ops).ll
                  nbytes := (Lru.runOps vlen maxBytes ops).nbytes +
                    (strLen key : Int) + (vlen value : Int) } := by
            unfold Lru.Add
            rw [hex]
          have hacc2 :
              Lru.Acc vlen
                { Lru.runOps vlen maxBytes ops with
                  ll := ⟨key, value⟩ :: (Lru.runOps vlen maxBytes ops).ll
                  nbytes := (Lru.runOps vlen maxBytes ops).nbytes +
                    (strLen key : Int) + (vlen value : Int) } := by
            unfold Lru.Acc at hacc ⊢
            simp only []
            rw [Lru.sumBytes_cons]
            unfold Lru.entrySize
            simp only []
            omega
          have hempty := Lru.evictFuel_empties vlen
            (⟨key, value⟩ :: (Lru.runOps vlen maxBytes ops).ll).length
            { Lru.runOps vlen maxBytes ops with
              ll := ⟨key, value⟩ :: (Lru.runOps vlen maxBytes ops).ll
              nbytes := (Lru.runOps vlen maxBytes ops).nbytes +
                (strLen key : Int) + (vlen value : Int) }
            (le_refl _) hacc2 (by simp only []; rw [hmb]; exact hpos)
            (by
              intro e he
              simp only [List.head?] at he
              cases he
              simp only []
              rw [hmb]
              unfold Lru.entrySize
              exact hbig)
          rw [heq]
          have hll : (Lru.evictLoop vlen
              { Lru.runOps vlen maxBytes ops with
                ll := ⟨key, value⟩ :: (Lru.runOps vlen maxBytes ops).ll
                nbytes := (Lru.runOps vlen maxBytes ops).nbytes +
                  (strLen key : Int) + (vlen value : Int) }).ll = [] := hempty.1
          refine ⟨hll, hempty.2, ?_⟩
          unfold Lru.Get
          rw [hll]
          simp [Lru.extractKey]

/-- Witness for C10 at a concrete input: capacity 5, adding the 6-byte
entry `("key","abc")` to the empty engine leaves it empty and missing. -/
theorem c10_oversized_add_witness :
    (Lru.Add strLen "key" "abc" (Lru.runOps strLen 5 [])).ll = [] ∧
    (Lru.Add strLen "key" "abc" (Lru.runOps strLen 5 [])).nbytes = 0 ∧
    (Lru.Get "key" (Lru.Add strLen "key" "abc" (Lru.runOps strLen 5 []))).1 = none :=
  c10_oversized_add String strLen 5 [] "key" "abc" (by decide) (by decide) (by decide)


namespace GeeCache

theorem groupGet_miss (getter : Getter) (peers : Option PeerPicker) (key : String)
    (g : GroupState) (hkey : key ≠ "")
    (hmiss : (cacheGet key g.mainCache).1 = none) :
    groupGet getter peers key g =
      load getter peers key { g with cacheGets := g.cacheGets + 1 } := by
  unfold groupGet
  rw [if_neg hkey]
  rcases hc : cacheGet key g.mainCache with ⟨o, c2⟩
  rw [hc] at hmiss
  simp at hmiss
  rw [hmiss]

theorem load_no_picker (getter : Getter) (key : String) (g : GroupState) :
    load getter none key g = getLocally getter key g := rfl

theorem load_pick_none (getter : Getter) (picker : PeerPicker) (key : String)
    (g : GroupState) (hpick : picker key = none) :
    load getter (some picker) key g = getLocally getter key g := by
  simp only [load, hpick]

theorem load_peer_ok (getter : Getter) (picker : PeerPicker) (peer : PeerGetter)
    (key : String) (g : GroupState) (bs : List Nat)
    (hpick : picker key = some peer) (hpeer : peer g.name key = Except.ok bs) :
    load getter (some picker) key g =
      ((⟨bs⟩, none), { g with peerCalls := g.peerCalls + 1 }) := by
  simp only [load, getFromPeer, hpick, hpeer]

theorem load_peer_err (getter : Getter) (picker : PeerPicker) (peer : PeerGetter)
    (key : String) (g : GroupState) (pe : String)
    (hpick : picker key = some peer) (hpeer : peer g.name key = Except.error pe) :
    load getter (some picker) key g =
      getLocally getter key { g with peerCalls := g.peerCalls + 1 } := by
  simp only [load, getFromPeer, hpick, hpeer]

theorem getLocally_ok (getter : Getter) (key : String) (g : GroupState) (bs : List Nat)
    (h : getter key = Except.ok bs) :
    getLocally getter key g =
      ((⟨bs⟩, none),
        { g with
          loaderCalls := g.loaderCalls + 1
          mainCache := cacheAdd key ⟨bs⟩ g.mainCache }) := by
  simp only [getLocally, cloneBytes, h]

theorem getLocally_err (getter : Getter) (key : String) (g : GroupState) (e : String)
    (h : getter key = Except.error e) :
    getLocally getter key g =
      ((⟨[]⟩, some e), { g with loaderCalls := g.loaderCalls + 1 }) := by
  simp only [getLocally, h]

theorem getLocally_loaderCalls (getter : Getter) (key : String) (g : GroupState) :
    (getLocally getter key g).2.loaderCalls = g.loaderCalls + 1 := by
  unfold getLocally
  cases h : getter key <;> rfl

end GeeCache

/-- Claim C5: when `load(key)` obtains the value from a remote peer
(`getFromPeer` succeeds) the returned byte-view is not inserted into the
local cache shell — neither `load` nor the full `Group.Get` miss path touch
`mainCache` (only the peer-call counter changes) — whereas a local loader
success wraps the cloned bytes and inserts them under `key` via
`populateCache`.  Thus only local loader successes populate the local
cache. -/
theorem c5_peer_not_cached :
    (∀ (g : GeeCache.GroupState) (getter : GeeCache.Getter) (picker : GeeCache.PeerPicker)
        (peer : GeeCache.PeerGetter) (key : String) (bs : List Nat),
      picker key = some peer →
      peer g.name key = Except.ok bs →
      GeeCache.load getter (some picker) key g =
        ((⟨bs⟩, none), { g with peerCalls := g.peerCalls + 1 })) ∧
    (∀ (g : GeeCache.GroupState) (getter : GeeCache.Getter) (key : String) (bs : List Nat),
      getter key = Except.ok bs →
      GeeCache.load getter none key g =
        ((⟨bs⟩, none),
          { g with
            loaderCalls := g.loaderCalls + 1
            mainCache := GeeCache.cacheAdd key ⟨bs⟩ g.mainCache })) ∧
    (∀ (g : GeeCache.GroupState) (getter : GeeCache.Getter) (picker : GeeCache.PeerPicker)
        (peer : GeeCache.PeerGetter) (key : String) (bs : List Nat),
      key ≠ "" →
      (GeeCache.cacheGet key g.mainCache).1 = none →
      picker key = some peer →
      peer g.name key = Except.ok bs →
      GeeCache.groupGet getter (some picker) key g =
        ((⟨bs⟩, none),
          { g with cacheGets := g.cacheGets + 1, peerCalls := g.peerCalls + 1 })) := by
  refine ⟨?_, ?_, ?_⟩
  · intro g getter picker peer key bs hpick hpeer
    exact GeeCache.load_peer_ok getter picker peer key g bs hpick hpeer
  · intro g getter key bs h
    rw [GeeCache.load_no_picker]
    exact GeeCache.getLocally_ok getter key g bs h
  · intro g getter picker peer key bs hkey hmiss hpick hpeer
    rw [GeeCache.groupGet_miss getter (some picker) key g hkey hmiss]
    exact GeeCache.load_peer_ok getter picker peer key _ bs hpick hpeer

/-- Witness for C5 at a concrete input: a fresh group, a picker selecting a
succeeding peer — the result carries the peer bytes and the cache shell is
untouched. -/
theorem c5_peer_not_cached_witness :
    GeeCache.groupGet GeeCache.wGetterOk (some GeeCache.wPickerOk) "Tom" GeeCache.wGroup =
      ((⟨[9, 9]⟩, none),
        { GeeCache.wGroup with
          cacheGets := GeeCache.wGroup.cacheGets + 1
          peerCalls := GeeCache.wGroup.peerCalls + 1 }) :=
  c5_peer_not_cached.2.2 GeeCache.wGroup GeeCache.wGetterOk GeeCache.wPickerOk
    GeeCache.wPeerOk "Tom" [9, 9] (by decide) rfl rfl rfl

/-- Claim C6: when the peer fetch fails or no remote peer is selected,
`load(key)` invokes the local source loader (its invocation counter
increments); a peer error is never surfaced — the miss path returns exactly
the local result, independent of the peer error — and a loader error is
returned verbatim to the caller and is not cached (the cache shell is
unchanged). -/
theorem c6_peer_fallback :
    (∀ (g : GeeCache.GroupState) (getter : GeeCache.Getter) (key : String),
      key ≠ "" →
      (GeeCache.cacheGet key g.mainCache).1 = none →
      GeeCache.groupGet getter none key g =
        GeeCache.getLocally getter key { g with cacheGets := g.cacheGets + 1 }) ∧
    (∀ (g : GeeCache.GroupState) (getter : GeeCache.Getter) (picker : GeeCache.PeerPicker)
        (key : String),
      key ≠ "" →
      (GeeCache.cacheGet key g.mainCache).1 = none →
      picker key = none →
      GeeCache.groupGet getter (some picker) key g =
        GeeCache.getLocally getter key { g with cacheGets := g.cacheGets + 1 }) ∧
    (∀ (g : GeeCache.GroupState) (getter : GeeCache.Getter) (picker : GeeCache.PeerPicker)
        (peer : GeeCache.PeerGetter) (key : String) (pe : String),
      key ≠ "" →
      (GeeCache.cacheGet key g.mainCache).1 = none →
      picker key = some peer →
      peer g.name key = Except.error pe →
      GeeCache.groupGet getter (some picker) key g =
        GeeCache.getLocally getter key
          { g with cacheGets := g.cacheGets + 1, peerCalls := g.peerCalls + 1 }) ∧
    (∀ (g : GeeCache.GroupState) (getter : GeeCache.Getter) (key : String),
      (GeeCache.getLocally getter key g).2.loaderCalls = g.loaderCalls + 1) ∧
    (∀ (g : GeeCache.GroupState) (getter : GeeCache.Getter) (key : String) (e : String),
      getter key = Except.error e →
      GeeCache.getLocally getter key g =
        ((⟨[]⟩, some e), { g with loaderCalls := g.loaderCalls + 1 })) := by
  refine ⟨?_, ?_, ?_, ?_, ?_⟩
  · intro g getter key hkey hmiss
    rw [GeeCache.groupGet_miss getter none key g hkey hmiss, GeeCache.load_no_picker]
  · intro g getter picker key hkey hmiss hpick
    rw [GeeCache.groupGet_miss getter (some picker) key g hkey hmiss,
      GeeCache.load_pick_none getter picker key _ hpick]
  · intro g getter picker peer key pe hkey hmiss hpick hpeer
    rw [GeeCache.groupGet_miss getter (some picker) key g hkey hmiss]
    exact GeeCache.load_peer_err getter picker peer key _ pe hpick hpeer
  · intro g getter key
    exact GeeCache.getLocally_loaderCalls getter key g
  · intro g getter key e h
    exact GeeCache.getLocally_err getter key g e h

/-- Witness for C6 at a concrete input: the picker selects a failing peer;
the group falls back to the local loader and the peer error is not
surfaced. -/
theorem c6_peer_fallback_witness :
    GeeCache.groupGet GeeCache.wGetterOk (some GeeCache.wPickerErr) "Tom" GeeCache.wGroup =
      GeeCache.getLocally GeeCache.wGetterOk "Tom"
        { GeeCache.wGroup with
          cacheGets := GeeCache.wGroup.cacheGets + 1
          peerCalls := GeeCache.wGroup.peerCalls + 1 } :=
  c6_peer_fallback.2.2.1 GeeCache.wGroup GeeCache.wGetterOk GeeCache.wPickerErr
    GeeCache.wPeerErr "Tom" "server returned: 500 Internal Server Error"
    (by decide) rfl rfl rfl

/-- Claim C8: input errors are surfaced and recoverable: `Group.Get("")`
returns the dedicated error "key is required" together with a zero
byte-view and leaves the group state — including the cache-consultation and
loader counters — completely unchanged; and `NewGroup` with a nil loader
rejects the construction (the Go code panics before building the group; no
group is produced), while a non-nil loader yields a group with a fresh
unconstructed cache shell. -/
theorem c8_input_errors :
    (∀ (getter : GeeCache.Getter) (peers : Option GeeCache.PeerPicker)
        (g : GeeCache.GroupState),
      GeeCache.groupGet getter peers "" g = ((⟨[]⟩, some "key is required"), g)) ∧
    (∀ (name : String) (cacheBytes : Int), GeeCache.NewGroup name cacheBytes none = none) ∧
    (∀ (name : String) (cacheBytes : Int) (f : GeeCache.Getter),
      GeeCache.NewGroup name cacheBytes (some f) =
        some (f,
          { name := name
            mainCache := { lru := none, cacheBytes := cacheBytes }
            cacheGets := 0
            loaderCalls := 0
            peerCalls := 0 })) := by
  refine ⟨?_, ?_, ?_⟩
  · intro getter peers g
    rfl
  · intro name cacheBytes
    rfl
  · intro name cacheBytes f
    rfl

namespace ConcGet

theorem stepThread_pc0_hit (s : State) (t : Thread) (v : GeeCache.ByteView)
    (hpc : t.pc = 0) (hc : s.cached = some v) :
    stepThread s t = (s, { t with pc := 2, result := some v }) := by
  unfold stepThread
  rw [hpc, hc]

theorem stepThread_pc0_miss (s : State) (t : Thread)
    (hpc : t.pc = 0) (hc : s.cached = none) :
    stepThread s t = (s, { t with pc := 1, observedMiss := true }) := by
  unfold stepThread
  rw [hpc, hc]

theorem stepThread_pc1 (s : State) (t : Thread) (hpc : t.pc = 1) :
    stepThread s t =
      ({ s with cached := some loaderVal, loadCount := s.loadCount + 1 },
       { t with pc := 2, result := some loaderVal }) := by
  unfold stepThread
  rw [hpc]

theorem stepThread_pc_ge2 (s : State) (t : Thread) (hpc : 2 ≤ t.pc) :
    stepThread s t = (s, t) := by
  unfold stepThread
  cases hpc2 : t.pc with
  | zero => omega
  | succ n =>
      cases n with
      | zero => omega
      | succ m => rfl

theorem step_ok (s : State) (i : Nat) (h : OK s) : OK (step s i) := by
  obtain ⟨hcount, hth⟩ := h
  unfold step
  cases hg : s.threads.get? i with
  | none => exact ⟨hcount, hth⟩
  | some t =>
      obtain ⟨hi, he⟩ := List.getElem?_eq_some_iff.mp
        (by rw [← List.get?_eq_getElem?]; exact hg)
      have htmem : t ∈ s.threads := he ▸ List.getElem_mem hi
      have htc := hth t htmem
      have hsetmem : ∀ (a t2 : Thread), t2 ∈ s.threads.set i a → t2 ∈ s.threads ∨ t2 = a :=
        fun a t2 hm => List.mem_or_eq_of_mem_set hm
      have hcnt : ∀ (a : Thread),
          (s.threads.set i a).countP (fun t2 => t2.pc = 2 && t2.observedMiss) =
            missLoads s - (if (t.pc = 2 && t.observedMiss) = true then 1 else 0) +
              (if (a.pc = 2 && a.observedMiss) = true then 1 else 0) := by
        intro a
        unfold missLoads
        rw [List.countP_set _ _ _ _ hi, he]
      show OK { (stepThread s t).1 with
        threads := (stepThread s t).1.threads.set i (stepThread s t).2 }
      rcases htpc : t.pc with _ | n
      · cases hca : s.cached with
        | some v =>
            rw [stepThread_pc0_hit s t v htpc hca]
            refine ⟨?_, ?_⟩
            · show s.loadCount =
                (s.threads.set i { t with pc := 2, result := some v }).countP
                  (fun t2 => t2.pc = 2 && t2.observedMiss)
              rw [hcnt]
              have hmf : t.observedMiss = false := htc.1 htpc
              rw [htpc, hmf]
              simpa using hcount
            · intro t2 hm
              cases hsetmem _ t2 hm with
              | inl hin => exact hth t2 hin
              | inr heq =>
                  rw [heq]
                  exact ⟨fun hpc => by simp at hpc, fun hpc => by simp at hpc⟩
        | none =>
            rw [stepThread_pc0_miss s t htpc hca]
            refine ⟨?_, ?_⟩
            · show s.loadCount =
                (s.threads.set i { t with pc := 1, observedMiss := true }).countP
                  (fun t2 => t2.pc = 2 && t2.observedMiss)
              rw [hcnt]
              have hmf : t.observedMiss = false := htc.1 htpc
              rw [htpc, hmf]
              simpa using hcount
            · intro t2 hm
              cases hsetmem _ t2 hm with
              | inl hin => exact hth t2 hin
              | inr heq =>
                  rw [heq]
                  exact ⟨fun hpc => by simp at hpc, fun _ => rfl⟩
      · cases n with
        | zero =>
            have ht1 : t.pc = 1 := htpc
            have hmt : t.observedMiss = true := htc.2 ht1
            rw [stepThread_pc1 s t ht1]
            refine ⟨?_, ?_⟩
            · show s.loadCount + 1 =
                (s.threads.set i { t with pc := 2, result := some loaderVal }).countP
                  (fun t2 => t2.pc = 2 && t2.observedMiss)
              rw [hcnt]
              rw [ht1, hmt]
              simpa using hcount
            · intro t2 hm
              cases hsetmem _ t2 hm with
              | inl hin => exact hth t2 hin
              | inr heq =>
                  rw [heq]
                  exact ⟨fun hpc => by simp at hpc, fun hpc => by simp at hpc⟩
        | succ m =>
            have hge : 2 ≤ t.pc := by omega
            rw [stepThread_pc_ge2 s t hge]
            refine ⟨?_, ?_⟩
            · show s.loadCount =
                (s.threads.set i t).countP (fun t2 => t2.pc = 2 && t2.observedMiss)
              rw [hcnt]
              cases hb : (t.pc = 2 && t.observedMiss : Bool) with
              | true =>
                  have hpos : 0 < missLoads s := by
                    unfold missLoads
                    exact List.countP_pos_iff.mpr ⟨t, htmem, hb⟩
                  simp only [if_true]
                  omega
              | false =>
                  simpa using hcount
            · intro t2 hm
              cases hsetmem _ t2 hm with
              | inl hin => exact hth t2 hin
              | inr heq => rw [heq]; exact htc

theorem run_ok (sched : List Nat) (s : State) (h : OK s) : OK (run sched s) := by
  unfold run
  induction sched generalizing s with
  | nil => exact h
  | cons i rest ih => exact ih _ (step_ok s i h)

end ConcGet

/-- Counterexample to claim C1 as stated: in the code
(src/unnamed/part_004) `Group.Get` dispatches a miss directly to
`load(key)` — the `Group` struct has no single-flight field and `load` is
not wrapped in `singleflight.Do` — so two concurrent `Get` calls for the
same key that both miss the local cache before either load completes (the
schedule `[0, 1, 0, 1]`: thread 0 checks the cache, thread 1 checks the
cache, thread 0 loads, thread 1 loads) execute the load twice, not "exactly
once per generation". -/
theorem c1_counterexample :
    (ConcGet.run [0, 1, 0, 1] ConcGet.init2).loadCount = 2 ∧
    ¬ ((ConcGet.run [0, 1, 0, 1] ConcGet.init2).loadCount = 1) := by decide

/-- Claim C1, amended: `Group.Get` dispatches a local-cache miss directly
to `load(key)` with no single-flight coalescing (the repository's
`singleflight` package exists but is not embedded in `Group`), so for any
interleaving of two concurrent `Get` calls for the same key, the load is
executed once per `Get` call that observed a miss — in particular twice
under the schedule where both calls miss before either load completes —
rather than once per generation. -/
theorem c1_load_per_miss :
    (∀ sched : List Nat,
      (ConcGet.run sched ConcGet.init2).loadCount =
        ConcGet.missLoads (ConcGet.run sched ConcGet.init2)) ∧
    (ConcGet.run [0, 1, 0, 1] ConcGet.init2).loadCount = 2 ∧
    ConcGet.missLoads (ConcGet.run [0, 1, 0, 1] ConcGet.init2) = 2 := by
  refine ⟨?_, by decide, by decide⟩
  intro sched
  have hok : ConcGet.OK ConcGet.init2 := by
    constructor
    · decide
    · intro t hm
      fin_cases hm <;> exact ⟨fun _ => rfl, fun h => by simp at h⟩
  exact (ConcGet.run_ok sched ConcGet.init2 hok).1

namespace ConsistentHash

theorem foldlMin_eq (a : Int) :
    ∀ (xs : List Int) (x : Int), (a = x ∨ a ∈ xs) → a ≤ x → (∀ b ∈ xs, a ≤ b) →
      xs.foldl min x = a := by
  intro xs
  induction xs with
  | nil =>
      intro x hmem hax _
      cases hmem with
      | inl h => simpa using h.symm
      | inr h => simp at h
  | cons y ys ih =>
      intro x hmem hax hlb
      have hay : a ≤ y := hlb y (by simp)
      have hmin : a ≤ min x y := le_min hax hay
      rw [List.foldl_cons]
      apply ih (min x y) ?_ hmin (fun b hb => hlb b (by simp [hb]))
      cases hmem with
      | inl h =>
          left
          rw [← h] at hax ⊢
          exact (min_eq_left hay).symm
      | inr h =>
          cases List.mem_cons.mp h with
          | inl h2 =>
              left
              rw [← h2] at hay ⊢
              exact (min_eq_right hax).symm
          | inr h2 => right; exact h2

theorem min?_eq_some_of (l : List Int) (a : Int) (h1 : a ∈ l) (h2 : ∀ b ∈ l, a ≤ b) :
    l.min? = some a := by
  cases l with
  | nil => simp at h1
  | cons x xs =>
      show some (xs.foldl min x) = some a
      have hmem : a = x ∨ a ∈ xs := by
        cases List.mem_cons.mp h1 with
        | inl h => exact Or.inl h
        | inr h => exact Or.inr h
      rw [foldlMin_eq a xs x hmem (h2 x (by simp)) (fun b hb => h2 b (by simp [hb]))]

theorem sorted_getElem_le (l : List Int) (h : l.Sorted (· ≤ ·)) (i j : Nat)
    (hi : i < l.length) (hj : j < l.length) (hij : i ≤ j) : l[i] ≤ l[j] := by
  rcases Nat.lt_or_ge i j with hlt | hge
  · exact List.pairwise_iff_getElem.mp h i j hi hj hlt
  · have heq : i = j := by omega
    subst heq
    exact le_refl _

theorem search_found (l : List Int) (h : Int) (hs : l.Sorted (· ≤ ·))
    (hex : ∃ x ∈ l, h ≤ x) :
    l.findIdx (fun x => decide (h ≤ x)) < l.length ∧
    (l.filter (fun x => decide (h ≤ x))).min? =
      some (l.getD (l.findIdx (fun x => decide (h ≤ x))) 0) := by
  have hlt : l.findIdx (fun x => decide (h ≤ x)) < l.length := by
    apply List.findIdx_lt_length.mpr
    obtain ⟨x, hx, hle⟩ := hex
    exact ⟨x, hx, by simpa using hle⟩
  refine ⟨hlt, ?_⟩
  rw [List.getD_eq_getElem _ _ hlt]
  have hpa : h ≤ l[l.findIdx (fun x => decide (h ≤ x))] := by
    have := List.findIdx_getElem (w := hlt)
    simpa using this
  apply min?_eq_some_of
  · exact List.mem_filter.mpr ⟨List.getElem_mem hlt, by simpa using hpa⟩
  · intro b hb
    obtain ⟨hbl, hpb⟩ := List.mem_filter.mp hb
    obtain ⟨j, hj, hbj⟩ := List.mem_iff_getElem.mp hbl
    have hple : l.findIdx (fun x => decide (h ≤ x)) ≤ j := by
      by_contra hcon
      push_neg at hcon
      have := List.not_of_lt_findIdx hcon
      rw [hbj] at this
      rw [this] at hpb
      exact Bool.false_ne_true hpb
    rw [← hbj]
    exact sorted_getElem_le l hs _ j hlt hj hple

theorem search_not_found (l : List Int) (h : Int)
    (hall : ∀ x ∈ l, x < h) :
    l.findIdx (fun x => decide (h ≤ x)) = l.length ∧
    l.filter (fun x => decide (h ≤ x)) = [] := by
  constructor
  · apply List.findIdx_eq_length.mpr
    intro x hx
    simpa using not_le.mpr (hall x hx)
  · apply List.filter_eq_nil_iff.mpr
    intro x hx
    simpa using not_le.mpr (hall x hx)

end ConsistentHash

/-- Claim C4: `Get(key)` on an empty ring returns the empty string; on a
non-empty sorted ring it returns the node id mapped from the smallest
virtual-node hash `≥ hash(key)`, wrapping to index 0 when no such hash
exists (`specGet` is the spec-side description); and the S4 scenario holds:
with `replicas = 3` and the decimal-ASCII hash, after `Add("6","4","2")`
the placements are `Get("2")="2"`, `Get("11")="2"`, `Get("23")="4"`,
`Get("27")="2"` (wrap-around), and after a further `Add("8")`,
`Get("27")="8"`. -/
theorem c4_ring_get :
    (∀ (m : ConsistentHash.Map) (key : String),
      m.keys = [] → ConsistentHash.Get m key = "") ∧
    (∀ (m : ConsistentHash.Map) (key : String),
      m.keys.Sorted (· ≤ ·) → ConsistentHash.Get m key = ConsistentHash.specGet m key) ∧
    (ConsistentHash.Get
      (ConsistentHash.build 3 ConsistentHash.decimalHash [["6", "4", "2"]]) "2" = "2" ∧
     ConsistentHash.Get
      (ConsistentHash.build 3 ConsistentHash.decimalHash [["6", "4", "2"]]) "11" = "2" ∧
     ConsistentHash.Get
      (ConsistentHash.build 3 ConsistentHash.decimalHash [["6", "4", "2"]]) "23" = "4" ∧
     ConsistentHash.Get
      (ConsistentHash.build 3 ConsistentHash.decimalHash [["6", "4", "2"]]) "27" = "2" ∧
     ConsistentHash.Get
      (ConsistentHash.build 3 ConsistentHash.decimalHash [["6", "4", "2"], ["8"]]) "27" = "8") := by
  refine ⟨?_, ?_, by decide, by decide, by decide, by decide, by decide⟩
  · intro m key hnil
    unfold ConsistentHash.Get
    rw [if_pos (by rw [hnil]; rfl)]
  · intro m key hs
    by_cases hnil : m.keys = []
    · unfold ConsistentHash.Get ConsistentHash.specGet
      rw [if_pos (by rw [hnil]; rfl), if_pos hnil]
    · unfold ConsistentHash.Get ConsistentHash.specGet
      rw [if_neg (by simpa [List.isEmpty_iff] using hnil), if_neg hnil]
      dsimp only
      by_cases hex : ∃ x ∈ m.keys, ConsistentHash.hashOf m.hash key ≤ x
      · obtain ⟨hlt, hmin⟩ := ConsistentHash.search_found m.keys
          (ConsistentHash.hashOf m.hash key) hs hex
        rw [hmin, Nat.mod_eq_of_lt hlt]
      · push_neg at hex
        have hall : ∀ x ∈ m.keys, x < ConsistentHash.hashOf m.hash key :=
          fun x hx => hex x hx
        obtain ⟨hidx, hfil⟩ := ConsistentHash.search_not_found m.keys
          (ConsistentHash.hashOf m.hash key) hall
        rw [hidx, hfil, Nat.mod_self]
        cases hk : m.keys with
        | nil => exact absurd hk hnil
        | cons a t => rfl

namespace ConsistentHash

theorem foldVirtual_spec (key : String) :
    ∀ (is : List Nat) (m : Map),
      (is.foldl (addVirtual key) m).hash = m.hash ∧
      (is.foldl (addVirtual key) m).replicas = m.replicas ∧
      (is.foldl (addVirtual key) m).keys =
        m.keys ++ is.map (fun i => hashOf m.hash (toString i ++ key)) := by
  intro is
  induction is with
  | nil => intro m; exact ⟨rfl, rfl, by simp⟩
  | cons i rest ih =>
      intro m
      rw [List.foldl_cons]
      obtain ⟨h1, h2, h3⟩ := ih (addVirtual key m i)
      refine ⟨h1, h2, ?_⟩
      rw [h3]
      show (m.keys ++ [hashOf m.hash (toString i ++ key)]) ++
          rest.map (fun j => hashOf m.hash (toString j ++ key)) =
        m.keys ++ (i :: rest).map (fun j => hashOf m.hash (toString j ++ key))
      rw [List.map_cons, List.append_assoc]
      rfl

theorem foldVirtual_hashMap (key : String) :
    ∀ (is : List Nat) (m : Map) (h2 : Int),
      ((∃ i ∈ is, h2 = hashOf m.hash (toString i ++ key)) ∧
        (is.foldl (addVirtual key) m).hashMap h2 = key) ∨
      ((∀ i ∈ is, h2 ≠ hashOf m.hash (toString i ++ key)) ∧
        (is.foldl (addVirtual key) m).hashMap h2 = m.hashMap h2) := by
  intro is
  induction is with
  | nil =>
      intro m h2
      right
      exact ⟨by simp, rfl⟩
  | cons i rest ih =>
      intro m h2
      rw [List.foldl_cons]
      cases ih (addVirtual key m i) h2 with
      | inl hl =>
          obtain ⟨⟨i2, hi2, heq⟩, hval⟩ := hl
          left
          exact ⟨⟨i2, by simp [hi2], heq⟩, hval⟩
      | inr hr =>
          obtain ⟨hall, hval⟩ := hr
          by_cases hh : h2 = hashOf m.hash (toString i ++ key)
          · left
            refine ⟨⟨i, by simp, hh⟩, ?_⟩
            rw [hval]
            show (if h2 = hashOf m.hash (toString i ++ key) then key else m.hashMap h2) = key
            rw [if_pos hh]
          · right
            refine ⟨?_, ?_⟩
            · intro j hj
              cases List.mem_cons.mp hj with
              | inl hji => rw [hji]; exact hh
              | inr hjr => exact hall j hjr
            · rw [hval]
              show (if h2 = hashOf m.hash (toString i ++ key) then key else m.hashMap h2) =
                m.hashMap h2
              rw [if_neg hh]

theorem foldAddOne_spec :
    ∀ (ks : List String) (m : Map),
      (ks.foldl addOne m).hash = m.hash ∧
      (ks.foldl addOne m).replicas = m.replicas ∧
      (ks.foldl addOne m).keys = m.keys ++ allHashes m.replicas m.hash ks := by
  intro ks
  induction ks with
  | nil =>
      intro m
      exact ⟨rfl, rfl, by simp [allHashes]⟩
  | cons k rest ih =>
      intro m
      rw [List.foldl_cons]
      obtain ⟨ha1, ha2, ha3⟩ := foldVirtual_spec k (List.range m.replicas) m
      obtain ⟨hb1, hb2, hb3⟩ := ih (addOne m k)
      have haddOne : addOne m k = (List.range m.replicas).foldl (addVirtual k) m := rfl
      refine ⟨hb1.trans (haddOne ▸ ha1), hb2.trans (haddOne ▸ ha2), ?_⟩
      rw [hb3]
      have hrep : (addOne m k).replicas = m.replicas := haddOne ▸ ha2
      have hhash : (addOne m k).hash = m.hash := haddOne ▸ ha1
      rw [hrep, hhash, haddOne, ha3]
      show (m.keys ++ (List.range m.replicas).map (fun i => hashOf m.hash (toString i ++ k))) ++
          allHashes m.replicas m.hash rest =
        m.keys ++ allHashes m.replicas m.hash (k :: rest)
      unfold allHashes
      rw [List.flatMap_cons, List.append_assoc]

theorem Add_spec (m : Map) (ks : List String) :
    (Add m ks).hash = m.hash ∧
    (Add m ks).replicas = m.replicas ∧
    (Add m ks).keys.Perm (m.keys ++ allHashes m.replicas m.hash ks) ∧
    (Add m ks).keys.Sorted (· ≤ ·) ∧
    (Add m ks).hashMap = (ks.foldl addOne m).hashMap := by
  obtain ⟨h1, h2, h3⟩ := foldAddOne_spec ks m
  refine ⟨h1, h2, ?_, ?_, rfl⟩
  · show (List.insertionSort (· ≤ ·) (ks.foldl addOne m).keys).Perm _
    exact (List.perm_insertionSort (· ≤ ·) _).trans (h3 ▸ List.Perm.refl _)
  · exact List.sorted_insertionSort (· ≤ ·) _

theorem mapOK_addOne (fn : Hash) (r : Nat) (T : List String) (done : List String)
    (m : Map) (n0 : String)
    (hinj : InjOn fn r T) (hn0 : n0 ∈ T) (hdone : ∀ n ∈ done, n ∈ T)
    (hhash : m.hash = fn) (hrep : m.replicas = r)
    (hok : MapOK fn r done m) : MapOK fn r (done ++ [n0]) (addOne m n0) := by
  intro i n hi hn
  show ((List.range m.replicas).foldl (addVirtual n0) m).hashMap
    (hashOf fn (toString i ++ n)) = n
  cases foldVirtual_hashMap n0 (List.range m.replicas) m (hashOf fn (toString i ++ n)) with
  | inl hl =>
      obtain ⟨⟨i2, hi2, heq⟩, hval⟩ := hl
      have hi2r : i2 < r := by rw [← hrep]; exact List.mem_range.mp hi2
      have hnT : n ∈ T := by
        cases List.mem_append.mp hn with
        | inl h => exact hdone n h
        | inr h => simp at h; rw [h]; exact hn0
      have heq2 : hashOf fn (toString i ++ n) = hashOf fn (toString i2 ++ n0) := by
        rw [heq, hhash]
      have hnn0 : n = n0 := hinj i n i2 n0 hi hi2r hnT hn0 heq2
      rw [hval, hnn0]
  | inr hr =>
      obtain ⟨hall, hval⟩ := hr
      have hnd : n ∈ done := by
        cases List.mem_append.mp hn with
        | inl h => exact h
        | inr h =>
            simp at h
            exfalso
            apply hall i (by rw [hrep]; exact List.mem_range.mpr hi)
            rw [h, hhash]
      rw [hval]
      exact hok i n hi hnd

theorem mapOK_foldAddOne (fn : Hash) (r : Nat) (T : List String) :
    ∀ (ks : List String) (m : Map) (done : List String),
      InjOn fn r T → (∀ n ∈ ks, n ∈ T) → (∀ n ∈ done, n ∈ T) →
      m.hash = fn → m.replicas = r →
      MapOK fn r done m → MapOK fn r (done ++ ks) (ks.foldl addOne m) := by
  intro ks
  induction ks with
  | nil =>
      intro m done _ _ _ _ _ hok
      simpa using hok
  | cons n0 rest ih =>
      intro m done hinj hks hdone hhash hrep hok
      rw [List.foldl_cons]
      have hstep := mapOK_addOne fn r T done m n0 hinj (hks n0 (by simp)) hdone hhash hrep hok
      have haddOne : addOne m n0 = (List.range m.replicas).foldl (addVirtual n0) m := rfl
      obtain ⟨hv1, hv2, _⟩ := foldVirtual_spec n0 (List.range m.replicas) m
      have hres := ih (addOne m n0) (done ++ [n0]) hinj
        (fun n hn => hks n (by simp [hn]))
        (by
          intro n hn
          cases List.mem_append.mp hn with
          | inl h => exact hdone n h
          | inr h => simp at h; rw [h]; exact hks n0 (by simp))
        ((haddOne ▸ hv1).trans hhash) ((haddOne ▸ hv2).trans hrep) hstep
      rw [List.append_assoc] at hres
      simpa using hres

theorem mapOK_Add (fn : Hash) (r : Nat) (T : List String) (m : Map)
    (ks : List String) (done : List String)
    (hinj : InjOn fn r T) (hks : ∀ n ∈ ks, n ∈ T) (hdone : ∀ n ∈ done, n ∈ T)
    (hhash : m.hash = fn) (hrep : m.replicas = r)
    (hok : MapOK fn r done m) : MapOK fn r (done ++ ks) (Add m ks) := by
  have hmap : (Add m ks).hashMap = (ks.foldl addOne m).hashMap := (Add_spec m ks).2.2.2.2
  intro i n hi hn
  rw [hmap]
  exact mapOK_foldAddOne fn r T ks m done hinj hks hdone hhash hrep hok i n hi hn

theorem build_foldAdd_spec (fn : Hash) (r : Nat) :
    ∀ (bs : List (List String)) (m : Map),
      m.hash = fn → m.replicas = r →
      (bs.foldl Add m).hash = fn ∧ (bs.foldl Add m).replicas = r ∧
      (bs.foldl Add m).keys.Perm (m.keys ++ allHashes r fn bs.flatten) ∧
      (m.keys.Sorted (· ≤ ·) → (bs.foldl Add m).keys.Sorted (· ≤ ·)) := by
  intro bs
  induction bs with
  | nil =>
      intro m hhash hrep
      refine ⟨hhash, hrep, ?_, fun h => h⟩
      simp [allHashes]
  | cons b rest ih =>
      intro m hhash hrep
      rw [List.foldl_cons]
      obtain ⟨ha1, ha2, ha3, ha4, _⟩ := Add_spec m b
      obtain ⟨hb1, hb2, hb3, hb4⟩ := ih (Add m b) (ha1.trans hhash) (ha2.trans hrep)
      refine ⟨hb1, hb2, ?_, fun _ => hb4 ha4⟩
      have hstep : (Add m b).keys.Perm (m.keys ++ allHashes r fn b) := by
        rw [hhash, hrep] at ha3
        exact ha3
      have hp1 : (rest.foldl Add (Add m b)).keys.Perm
          ((Add m b).keys ++ allHashes r fn rest.flatten) := hb3
      have hp2 : ((Add m b).keys ++ allHashes r fn rest.flatten).Perm
          ((m.keys ++ allHashes r fn b) ++ allHashes r fn rest.flatten) :=
        hstep.append_right _
      have hp3 : (m.keys ++ allHashes r fn b) ++ allHashes r fn rest.flatten =
          m.keys ++ allHashes r fn (b :: rest).flatten := by
        rw [List.append_assoc]
        unfold allHashes
        rw [List.flatten_cons, List.flatMap_append]
      exact hp3 ▸ (hp1.trans hp2)

theorem mapOK_build (fn : Hash) (r : Nat) (bs : List (List String))
    (hinj : InjOn fn r bs.flatten) :
    MapOK fn r bs.flatten (build r fn bs) := by
  suffices hgen : ∀ (bs2 : List (List String)) (m : Map) (done : List String),
      InjOn fn r (done ++ bs2.flatten) →
      m.hash = fn → m.replicas = r →
      MapOK fn r done m → MapOK fn r (done ++ bs2.flatten) (bs2.foldl Add m) by
    have h := hgen bs (New r fn) [] (by simpa using hinj) rfl rfl
      (by intro i n _ hn; simp at hn)
    simpa using h
  intro bs2
  induction bs2 with
  | nil =>
      intro m done _ _ _ hok
      simpa using hok
  | cons b rest ihb =>
      intro m done hinj2 hhash hrep hok
      rw [List.foldl_cons]
      have hTsub : ∀ n ∈ done ++ b, n ∈ done ++ (b :: rest).flatten := by
        intro n hn
        cases List.mem_append.mp hn with
        | inl h => exact List.mem_append.mpr (Or.inl h)
        | inr h =>
            refine List.mem_append.mpr (Or.inr ?_)
            rw [List.flatten_cons]
            exact List.mem_append.mpr (Or.inl h)
      have hstep := mapOK_Add fn r (done ++ (b :: rest).flatten) m b done hinj2
        (fun n hn => hTsub n (List.mem_append.mpr (Or.inr hn)))
        (fun n hn => List.mem_append.mpr (Or.inl hn))
        hhash hrep hok
      obtain ⟨ha1, ha2, _, _, _⟩ := Add_spec m b
      have hinj3 : InjOn fn r ((done ++ b) ++ rest.flatten) := by
        intro i1 n1 i2 n2 hi1 hi2 hn1 hn2 heq
        apply hinj2 i1 n1 i2 n2 hi1 hi2 ?_ ?_ heq
        · rw [List.append_assoc, ← List.flatten_cons] at hn1
          exact hn1
        · rw [List.append_assoc, ← List.flatten_cons] at hn2
          exact hn2
      have hres := ihb (Add m b) (done ++ b) hinj3 (ha1.trans hhash) (ha2.trans hrep) hstep
      intro i n hi hn
      apply hres i n hi
      rw [List.append_assoc, ← List.flatten_cons]
      exact hn

end ConsistentHash

/-- Counterexample to claim C7 as stated: placement is *not* insensitive to
add order for every hash function.  With `replicas = 1` and the constant
hash `0`, both virtual nodes collide at hash 0 and the Go map records the
last writer, so adding the same node set `{"a","b"}` as `Add("a","b")`
versus `Add("b")` then `Add("a")` yields different owners for the same
key. -/
theorem c7_counterexample :
    ConsistentHash.Get (ConsistentHash.build 1 (fun _ => 0) [["a", "b"]]) "x" = "b" ∧
    ConsistentHash.Get (ConsistentHash.build 1 (fun _ => 0) [["b"], ["a"]]) "x" = "a" ∧
    ("b" : String) ≠ "a" := by decide

/-- Claim C7, amended: for every replicas value, hash function, node set
and key, *provided the generated virtual-node hashes are collision-free
across distinct nodes* (`InjOn` — forced by `c7_counterexample`, since on a
collision the Go map keeps the last writer and placement becomes
order-dependent), building a ring with the same replicas and hash and
adding the same multiset of node ids in any order and any grouping into
`Add` calls yields the same `Get(key)` result. -/
theorem c7_order_insensitive (r : Nat) (fn : ConsistentHash.Hash)
    (b1 b2 : List (List String)) (key : String)
    (hperm : b1.flatten.Perm b2.flatten)
    (hinj : ConsistentHash.InjOn fn r b1.flatten) :
    ConsistentHash.Get (ConsistentHash.build r fn b1) key =
      ConsistentHash.Get (ConsistentHash.build r fn b2) key := by
  have hinj2 : ConsistentHash.InjOn fn r b2.flatten := by
    intro i1 n1 i2 n2 hi1 hi2 hn1 hn2 heq
    exact hinj i1 n1 i2 n2 hi1 hi2 (hperm.mem_iff.mpr hn1) (hperm.mem_iff.mpr hn2) heq
  obtain ⟨hf1, hr1, hk1, hs1⟩ :=
    ConsistentHash.build_foldAdd_spec fn r b1 (ConsistentHash.New r fn) rfl rfl
  obtain ⟨hf2, hr2, hk2, hs2⟩ :=
    ConsistentHash.build_foldAdd_spec fn r b2 (ConsistentHash.New r fn) rfl rfl
  have hk1b : (ConsistentHash.build r fn b1).keys.Perm
      (ConsistentHash.allHashes r fn b1.flatten) := by simpa using hk1
  have hk2b : (ConsistentHash.build r fn b2).keys.Perm
      (ConsistentHash.allHashes r fn b2.flatten) := by simpa using hk2
  have hkeq : (ConsistentHash.build r fn b1).keys = (ConsistentHash.build r fn b2).keys := by
    apply List.eq_of_perm_of_sorted ?_ (hs1 List.sorted_nil) (hs2 List.sorted_nil)
    exact hk1b.trans ((List.Perm.flatMap_right _ hperm).trans hk2b.symm)
  by_cases hemp : (ConsistentHash.build r fn b2).keys = []
  · unfold ConsistentHash.Get
    rw [hkeq, if_pos (by rw [hemp]; rfl), if_pos (by rw [hemp]; rfl)]
  · unfold ConsistentHash.Get
    rw [hkeq, if_neg (by simpa [List.isEmpty_iff] using hemp),
      if_neg (by simpa [List.isEmpty_iff] using hemp)]
    dsimp only
    rw [show (ConsistentHash.build r fn b1).hash = fn from hf1,
      show (ConsistentHash.build r fn b2).hash = fn from hf2]
    have hlen : 0 < (ConsistentHash.build r fn b2).keys.length :=
      List.length_pos.mpr hemp
    have hrIdx :
        ((ConsistentHash.build r fn b2).keys.findIdx
          (fun x => decide (ConsistentHash.hashOf fn key ≤ x))) %
          (ConsistentHash.build r fn b2).keys.length <
        (ConsistentHash.build r fn b2).keys.length := Nat.mod_lt _ hlen
    have hx : (ConsistentHash.build r fn b2).keys.getD
        (((ConsistentHash.build r fn b2).keys.findIdx
          (fun x => decide (ConsistentHash.hashOf fn key ≤ x))) %
          (ConsistentHash.build r fn b2).keys.length) 0 ∈
        (ConsistentHash.build r fn b2).keys := by
      rw [List.getD_eq_getElem _ _ hrIdx]
      exact List.getElem_mem hrIdx
    have hxall : (ConsistentHash.build r fn b2).keys.getD
        (((ConsistentHash.build r fn b2).keys.findIdx
          (fun x => decide (ConsistentHash.hashOf fn key ≤ x))) %
          (ConsistentHash.build r fn b2).keys.length) 0 ∈
        ConsistentHash.allHashes r fn b1.flatten := by
      apply hk1b.subset
      rw [hkeq]
      exact hx
    obtain ⟨n, hn, hxn⟩ := List.mem_flatMap.mp hxall
    obtain ⟨i, hi, hxi⟩ := List.mem_map.mp hxn
    have hir : i < r := List.mem_range.mp hi
    have h1 := ConsistentHash.mapOK_build fn r b1 hinj i n hir hn
    have h2 := ConsistentHash.mapOK_build fn r b2 hinj2 i n hir (hperm.mem_iff.mp hn)
    rw [← hxi]
    rw [h1, h2]

/-- Witness for C7 (amended) at a concrete input: replicas 1, the
decimal-ASCII hash (collision-free on `{"a","b"}`), one `Add("a","b")`
versus `Add("b")` then `Add("a")`. -/
theorem c7_order_insensitive_witness :
    ConsistentHash.Get (ConsistentHash.build 1 ConsistentHash.decimalHash [["a", "b"]]) "x" =
      ConsistentHash.Get (ConsistentHash.build 1 ConsistentHash.decimalHash [["b"], ["a"]]) "x" :=
  c7_order_insensitive 1 ConsistentHash.decimalHash [["a", "b"]] [["b"], ["a"]] "x"
    (by decide)
    (by
      intro i1 n1 i2 n2 hi1 hi2 hn1 hn2 heq
      interval_cases i1
      interval_cases i2
      fin_cases hn1 <;> fin_cases hn2 <;>
        first
          | rfl
          | exact absurd heq (by decide))

/-- Witness for C4: the empty-ring clause at a concrete fresh ring, and
the sorted-ring refinement clause at the S4 ring. -/
theorem c4_ring_get_witness :
    ConsistentHash.Get (ConsistentHash.New 3 ConsistentHash.decimalHash) "2" = "" ∧
    ConsistentHash.Get
        (ConsistentHash.build 3 ConsistentHash.decimalHash [["6", "4", "2"]]) "11" =
      ConsistentHash.specGet
        (ConsistentHash.build 3 ConsistentHash.decimalHash [["6", "4", "2"]]) "11" :=
  ⟨c4_ring_get.1 (ConsistentHash.New 3 ConsistentHash.decimalHash) "2" rfl,
   c4_ring_get.2.1 (ConsistentHash.build 3 ConsistentHash.decimalHash [["6", "4", "2"]]) "11"
     (by decide)⟩
